import Mathlib

/-!
Verification of the augmented-treap order-statistics multiset from
`q65-cart-removals/solution-2-python/Solution.py`.

The Python classes `_Node` / `_Treap` are embedded as an inductive tree whose
nodes carry the stored fields `key`, `prio`, `cnt`, `size`, `sum`; the stored
aggregate fields are part of the data (as in the source) and their consistency
is a proved invariant, not a definitional fact.  Random priorities drawn from
`random.Random(seed)` are modelled as explicit inputs: each insertion is given
the priority the PRNG would supply, so every theorem quantifies over all
priority choices.
-/

namespace CartRemovals

open scoped List

/-- Embedding of `_Node` (and `None`): `nil` is the absent child, `node` carries
the stored fields `key`, `prio`, `cnt`, `size`, `sum` and the two children. -/
inductive Tree where
  | nil : Tree
  | node (key prio cnt size sum : Int) (left right : Tree) : Tree

/-- Reading `n.size if n else 0` in the source: the stored `size` field. -/
def storedSize : Tree → Int
  | .nil => 0
  | .node _ _ _ sz _ _ _ => sz

/-- Reading `n.sum if n else 0` in the source: the stored `sum` field. -/
def storedSum : Tree → Int
  | .nil => 0
  | .node _ _ _ _ sm _ _ => sm

/-- Embedding of `_Node.recalc`: recompute the stored `size` and `sum` of the
root from the stored fields of its children. -/
def recalc : Tree → Tree
  | .nil => .nil
  | .node k p c _ _ l r =>
      .node k p c (storedSize l + c + storedSize r)
        (storedSum l + k * c + storedSum r) l r

/-- Embedding of `_Treap._split_le`: split by `key` into `(<= key, > key)`. -/
def split_le : Tree → Int → Tree × Tree
  | .nil, _ => (.nil, .nil)
  | .node k p c sz sm l r, key =>
      if k ≤ key then
        let ab := split_le r key
        (recalc (.node k p c sz sm l ab.1), ab.2)
      else
        let ab := split_le l key
        (ab.1, recalc (.node k p c sz sm ab.2 r))

/-- Node count, used as the termination measure for `merge`. -/
def nodes : Tree → Nat
  | .nil => 0
  | .node _ _ _ _ _ l r => nodes l + nodes r + 1

/-- Embedding of `_Treap._merge`, written with an explicit recursion-depth
bound so that it is structurally recursive (and hence computable by the
kernel): each recursive call of the source descends into one of the two
trees, so `nodes a + nodes b` steps always suffice, and the fuel-exhausted
fourth case is never reached when `merge` below supplies that much fuel. -/
def mergeF : Nat → Tree → Tree → Tree
  | _, .nil, b => b
  | _, .node ka pa ca sza sma la ra, .nil => .node ka pa ca sza sma la ra
  | 0, .node _ _ _ _ _ _ _, .node kb pb cb szb smb lb rb =>
      .node kb pb cb szb smb lb rb
  | fuel + 1, .node ka pa ca sza sma la ra, .node kb pb cb szb smb lb rb =>
      if pa > pb then
        recalc (.node ka pa ca sza sma la
          (mergeF fuel ra (.node kb pb cb szb smb lb rb)))
      else
        recalc (.node kb pb cb szb smb
          (mergeF fuel (.node ka pa ca sza sma la ra) lb) rb)

/-- Embedding of `_Treap._merge`: merge two trees, all keys of the first
intended to be below all keys of the second, keeping the heap order on
priorities. -/
def merge (a b : Tree) : Tree :=
  mergeF (nodes a + nodes b) a b

theorem mergeF_nil_right (f : Nat) (a : Tree) : mergeF f a Tree.nil = a := by
  cases a <;> simp [mergeF]

/-- Embedding of `_Treap.insert`: split at `key` and `key - 1`, increment the
count of the equal-key tree (or create a fresh node carrying the priority the
PRNG would have produced), and merge back. -/
def insert (t : Tree) (key prio : Int) : Tree :=
  let lr := split_le t key
  let lleq := split_le lr.1 (key - 1)
  let eq2 :=
    match lleq.2 with
    | .nil => Tree.node key prio 1 1 key .nil .nil
    | .node k p c sz sm l r => recalc (.node k p (c + 1) sz sm l r)
  merge (merge lleq.1 eq2) lr.2

/-- Loop body of `_Treap.max_count_within_sum`: state `(cur, kept, remaining)`
walked down the tree exactly as the Python `while` loop does. -/
def maxGo : Tree → Int → Int → Int
  | .nil, kept, _ => kept
  | .node key _ cnt _ _ left right, kept, remaining =>
      let left_sum := storedSum left
      let left_size := storedSize left
      if left_sum > remaining then maxGo left kept remaining
      else
        let remaining1 := remaining - left_sum
        let kept1 := kept + left_size
        if key ≤ 0 then kept1
        else
          let can_take := Int.fdiv remaining1 key
          if can_take ≤ 0 then kept1
          else
            let take := min can_take cnt
            let kept2 := kept1 + take
            let remaining2 := remaining1 - take * key
            if take < cnt then kept2
            else maxGo right kept2 remaining2

/-- Embedding of `_Treap.max_count_within_sum` (the spec's
`count_within_budget`): start the descent at the root with `kept = 0` and
`remaining = cap`. -/
def max_count_within_sum (t : Tree) (cap : Int) : Int :=
  maxGo t 0 cap

/-- Run a list of `(key, priority)` insertions left to right, starting from a
given tree: the priority component is the value the seeded PRNG would hand to
`insert` when the key is new (it is ignored otherwise, as in the source). -/
def insertAll (t : Tree) : List (Int × Int) → Tree
  | [] => t
  | kp :: rest => insertAll (insert t kp.1 kp.2) rest

/-- The tree obtained from a fresh `_Treap` by the given insertions. -/
def buildTree (l : List (Int × Int)) : Tree :=
  insertAll Tree.nil l

/-- Loop body of `CartRemovalsWithinBudget.getMinRemovalsWithinBudget`:
for each value compute `cap = budget - v`, answer `i` directly when `cap < 0`
and `i - max_count_within_sum cap` otherwise, then insert the value. -/
def driverGo (budget : Int) : List (Int × Int) → Tree → Int → List Int
  | [], _, _ => []
  | vp :: rest, t, i =>
      let cap := budget - vp.1
      let a := if cap < 0 then i else i - max_count_within_sum t cap
      a :: driverGo budget rest (insert t vp.1 vp.2) (i + 1)

/-- Embedding of `CartRemovalsWithinBudget.getMinRemovalsWithinBudget`, the
items paired with the priorities their insertions would draw. -/
def getMinRemovalsWithinBudget (budget : Int) (items : List (Int × Int)) :
    List Int :=
  driverGo budget items Tree.nil 0

/-- In-order list of keys, each key repeated `cnt` times: the multiset the
tree stores, read off in symmetric order. -/
def inorderKeys : Tree → List Int
  | .nil => []
  | .node k _ c _ _ l r =>
      inorderKeys l ++ List.replicate c.toNat k ++ inorderKeys r

/-- In-order list of the node keys, one entry per node. -/
def nodeKeys : Tree → List Int
  | .nil => []
  | .node k _ _ _ _ l r => nodeKeys l ++ k :: nodeKeys r

/-- Every node key of the tree satisfies the boolean predicate `p`. -/
def keysAll (p : Int → Bool) : Tree → Bool
  | .nil => true
  | .node k _ _ _ _ l r => p k && keysAll p l && keysAll p r

/-- Aggregate invariant of the spec: every stored `size` and `sum` field
equals the value `recalc` would recompute from the children. -/
def aggOk : Tree → Bool
  | .nil => true
  | .node k _ c sz sm l r =>
      (sz == storedSize l + c + storedSize r) &&
      (sm == storedSum l + k * c + storedSum r) && aggOk l && aggOk r

/-- Count invariant: every node stores `cnt ≥ 1`. -/
def cntOk : Tree → Bool
  | .nil => true
  | .node _ _ c _ _ l r => decide (1 ≤ c) && cntOk l && cntOk r

/-- Strict BST-order invariant: all keys of the left subtree are below the
node key, all keys of the right subtree above it, recursively. -/
def bstOk : Tree → Bool
  | .nil => true
  | .node k _ _ _ _ l r =>
      keysAll (fun x => decide (x < k)) l &&
      keysAll (fun x => decide (k < x)) r && bstOk l && bstOk r

/-- The three invariants a treap built by `insert` maintains. -/
def Inv (t : Tree) : Prop :=
  aggOk t = true ∧ cntOk t = true ∧ bstOk t = true

/-- Greedy reference count: walk the list front to back, taking elements while
the running budget still affords them. On an ascending list of non-negative
values this is the length of the longest prefix of cumulative sum at most
`cap`. -/
def greedyCount : List Int → Int → Nat
  | [], _ => 0
  | x :: xs, cap => if x ≤ cap then greedyCount xs (cap - x) + 1 else 0

/-- Modelled from the spec's words: the length of the longest prefix of the
list whose cumulative sum is at most `cap` (the largest `k` with
`(l.take k).sum ≤ cap`, or `0` when no prefix qualifies). -/
def longestFitLen (l : List Int) (cap : Int) : Nat :=
  ((List.range (l.length + 1)).filter
    (fun k => decide ((l.take k).sum ≤ cap))).foldr max 0

/-- Modelled from the claim's words for the driver: element `i` is `i` minus
the query at capacity `budget - v[i]` against the multiset of the first `i`
values, the current value being inserted only after that query. -/
def specRemovals (budget : Int) (items : List (Int × Int)) : List Int :=
  (List.range items.length).map (fun (i : Nat) =>
    (i : Int) - max_count_within_sum (buildTree (items.take i))
      (budget - (items.getD i (0, 0)).1))

/-! Basic facts about `recalc` and `keysAll`. -/

theorem inorderKeys_recalc (t : Tree) : inorderKeys (recalc t) = inorderKeys t := by
  cases t <;> simp [recalc, inorderKeys]

theorem nodeKeys_recalc (t : Tree) : nodeKeys (recalc t) = nodeKeys t := by
  cases t <;> simp [recalc, nodeKeys]

theorem keysAll_recalc (p : Int → Bool) (t : Tree) :
    keysAll p (recalc t) = keysAll p t := by
  cases t <;> simp [recalc, keysAll]

theorem cntOk_recalc (t : Tree) : cntOk (recalc t) = cntOk t := by
  cases t <;> simp [recalc, cntOk]

theorem bstOk_recalc (t : Tree) : bstOk (recalc t) = bstOk t := by
  cases t <;> simp [recalc, bstOk]

theorem aggOk_recalc_node (k p c sz sm : Int) {l r : Tree}
    (hl : aggOk l = true) (hr : aggOk r = true) :
    aggOk (recalc (.node k p c sz sm l r)) = true := by
  simp [recalc, aggOk, hl, hr]

theorem keysAll_mono {p q : Int → Bool} (h : ∀ x, p x = true → q x = true) :
    ∀ t, keysAll p t = true → keysAll q t = true := by
  intro t
  induction t with
  | nil => simp [keysAll]
  | node k pr c sz sm l r ihl ihr =>
      simp only [keysAll, Bool.and_eq_true]
      rintro ⟨⟨hk, hl⟩, hr⟩
      exact ⟨⟨h _ hk, ihl hl⟩, ihr hr⟩

theorem keysAll_root {p : Int → Bool} {k pr c sz sm : Int} {l r : Tree}
    (h : keysAll p (.node k pr c sz sm l r) = true) : p k = true := by
  simp only [keysAll, Bool.and_eq_true] at h
  exact h.1.1

theorem keysAll_mem_inorder {p : Int → Bool} :
    ∀ t, keysAll p t = true → ∀ x ∈ inorderKeys t, p x = true := by
  intro t
  induction t with
  | nil => simp [inorderKeys]
  | node k pr c sz sm l r ihl ihr =>
      simp only [keysAll, Bool.and_eq_true, inorderKeys, List.mem_append]
      rintro ⟨⟨hk, hl⟩, hr⟩ x hx
      rcases hx with (hx | hx) | hx
      · exact ihl hl x hx
      · rw [List.eq_of_mem_replicate hx]; exact hk
      · exact ihr hr x hx

theorem keysAll_mem_node {p : Int → Bool} :
    ∀ t, keysAll p t = true → ∀ x ∈ nodeKeys t, p x = true := by
  intro t
  induction t with
  | nil => simp [nodeKeys]
  | node k pr c sz sm l r ihl ihr =>
      simp only [keysAll, Bool.and_eq_true, nodeKeys, List.mem_append,
        List.mem_cons]
      rintro ⟨⟨hk, hl⟩, hr⟩ x hx
      rcases hx with hx | (hx | hx)
      · exact ihl hl x hx
      · rw [hx]; exact hk
      · exact ihr hr x hx

/-! Facts about `split_le`. -/

theorem split_le_inorder : ∀ (t : Tree) (key : Int),
    inorderKeys (split_le t key).1 ++ inorderKeys (split_le t key).2 =
      inorderKeys t := by
  intro t
  induction t with
  | nil => intro key; simp [split_le, inorderKeys]
  | node k pr c sz sm l r ihl ihr =>
      intro key
      by_cases h : k ≤ key
      · simp [split_le, h, inorderKeys, inorderKeys_recalc, ← ihr key,
          List.append_assoc]
      · simp [split_le, h, inorderKeys, inorderKeys_recalc, ← ihl key,
          List.append_assoc]

theorem split_le_keysAll {p : Int → Bool} : ∀ (t : Tree) (key : Int),
    keysAll p t = true →
    keysAll p (split_le t key).1 = true ∧ keysAll p (split_le t key).2 = true := by
  intro t
  induction t with
  | nil => intro key _; simp [split_le, keysAll]
  | node k pr c sz sm l r ihl ihr =>
      intro key hp
      simp only [keysAll, Bool.and_eq_true] at hp
      obtain ⟨⟨hk, hl⟩, hr⟩ := hp
      by_cases h : k ≤ key
      · obtain ⟨h1, h2⟩ := ihr key hr
        simp [split_le, h, keysAll_recalc, keysAll, hk, hl, h1, h2]
      · obtain ⟨h1, h2⟩ := ihl key hl
        simp [split_le, h, keysAll_recalc, keysAll, hk, hr, h1, h2]

theorem split_le_cntOk : ∀ (t : Tree) (key : Int),
    cntOk t = true →
    cntOk (split_le t key).1 = true ∧ cntOk (split_le t key).2 = true := by
  intro t
  induction t with
  | nil => intro key _; simp [split_le, cntOk]
  | node k pr c sz sm l r ihl ihr =>
      intro key hp
      simp only [cntOk, Bool.and_eq_true] at hp
      obtain ⟨⟨hk, hl⟩, hr⟩ := hp
      by_cases h : k ≤ key
      · obtain ⟨h1, h2⟩ := ihr key hr
        simp [split_le, h, cntOk_recalc, cntOk, hk, hl, h1, h2]
      · obtain ⟨h1, h2⟩ := ihl key hl
        simp [split_le, h, cntOk_recalc, cntOk, hk, hr, h1, h2]

theorem split_le_aggOk : ∀ (t : Tree) (key : Int),
    aggOk t = true →
    aggOk (split_le t key).1 = true ∧ aggOk (split_le t key).2 = true := by
  intro t
  induction t with
  | nil => intro key _; simp [split_le, aggOk]
  | node k pr c sz sm l r ihl ihr =>
      intro key hp
      simp only [aggOk, Bool.and_eq_true] at hp
      obtain ⟨⟨⟨_, _⟩, hl⟩, hr⟩ := hp
      by_cases h : k ≤ key
      · obtain ⟨h1, h2⟩ := ihr key hr
        refine ⟨?_, by simp [split_le, h, h2]⟩
        simp only [split_le, h, if_pos]
        exact aggOk_recalc_node _ _ _ _ _ hl h1
      · obtain ⟨h1, h2⟩ := ihl key hl
        refine ⟨by simp [split_le, h, h1], ?_⟩
        simp only [split_le, h, if_neg, ite_false]
        exact aggOk_recalc_node _ _ _ _ _ h2 hr

theorem split_le_bounds : ∀ (t : Tree) (key : Int), bstOk t = true →
    keysAll (fun x => decide (x ≤ key)) (split_le t key).1 = true ∧
    keysAll (fun x => decide (key < x)) (split_le t key).2 = true := by
  intro t
  induction t with
  | nil => intro key _; simp [split_le, keysAll]
  | node k pr c sz sm l r ihl ihr =>
      intro key hb
      simp only [bstOk, Bool.and_eq_true] at hb
      obtain ⟨⟨⟨hkl, hkr⟩, hbl⟩, hbr⟩ := hb
      by_cases h : k ≤ key
      · obtain ⟨h1, h2⟩ := ihr key hbr
        have hl' : keysAll (fun x => decide (x ≤ key)) l = true :=
          keysAll_mono (fun x hx => by
            simp only [decide_eq_true_eq] at hx ⊢; omega) l hkl
        simp [split_le, h, keysAll_recalc, keysAll, hl', h1, h2]
      · obtain ⟨h1, h2⟩ := ihl key hbl
        have hr' : keysAll (fun x => decide (key < x)) r = true :=
          keysAll_mono (fun x hx => by
            simp only [decide_eq_true_eq] at hx ⊢; omega) r hkr
        simp [split_le, h, keysAll_recalc, keysAll, hr', h1, h2]
        omega

theorem split_le_bstOk : ∀ (t : Tree) (key : Int), bstOk t = true →
    bstOk (split_le t key).1 = true ∧ bstOk (split_le t key).2 = true := by
  intro t
  induction t with
  | nil => intro key _; simp [split_le, bstOk]
  | node k pr c sz sm l r ihl ihr =>
      intro key hb
      simp only [bstOk, Bool.and_eq_true] at hb
      obtain ⟨⟨⟨hkl, hkr⟩, hbl⟩, hbr⟩ := hb
      by_cases h : k ≤ key
      · obtain ⟨h1, h2⟩ := ihr key hbr
        have ha : keysAll (fun x => decide (k < x)) (split_le r key).1 = true :=
          (split_le_keysAll r key hkr).1
        simp [split_le, h, bstOk_recalc, bstOk, hkl, ha, hbl, h1, h2]
      · obtain ⟨h1, h2⟩ := ihl key hbl
        have ha : keysAll (fun x => decide (x < k)) (split_le l key).2 = true :=
          (split_le_keysAll l key hkl).2
        simp [split_le, h, bstOk_recalc, bstOk, hkr, ha, hbr, h1, h2]

/-! Facts about `merge`, proved by induction on the fuel bound. -/

theorem mergeF_inorder : ∀ (f : Nat) (a b : Tree), nodes a + nodes b ≤ f →
    inorderKeys (mergeF f a b) = inorderKeys a ++ inorderKeys b := by
  intro f
  induction f with
  | zero =>
      intro a b hf
      cases a with
      | nil => simp [mergeF, inorderKeys]
      | node ka pa ca sza sma la ra =>
          cases b with
          | nil => simp [mergeF, inorderKeys]
          | node kb pb cb szb smb lb rb => simp [nodes] at hf
  | succ f ih =>
      intro a b hf
      cases a with
      | nil => simp [mergeF, inorderKeys]
      | node ka pa ca sza sma la ra =>
          cases b with
          | nil => simp [mergeF, inorderKeys]
          | node kb pb cb szb smb lb rb =>
              simp only [nodes] at hf
              have hra : nodes ra +
                  nodes (Tree.node kb pb cb szb smb lb rb) ≤ f := by
                simp only [nodes]
                omega
              have hlb : nodes (Tree.node ka pa ca sza sma la ra) +
                  nodes lb ≤ f := by
                simp only [nodes]
                omega
              by_cases hp : pa > pb
              · simp [mergeF, hp, inorderKeys_recalc, inorderKeys,
                  ih _ _ hra, List.append_assoc]
              · simp [mergeF, hp, inorderKeys_recalc, inorderKeys,
                  ih _ _ hlb, List.append_assoc]

theorem merge_inorder (a b : Tree) :
    inorderKeys (merge a b) = inorderKeys a ++ inorderKeys b :=
  mergeF_inorder _ a b le_rfl

theorem mergeF_keysAll {p : Int → Bool} : ∀ (f : Nat) (a b : Tree),
    nodes a + nodes b ≤ f → keysAll p a = true → keysAll p b = true →
    keysAll p (mergeF f a b) = true := by
  intro f
  induction f with
  | zero =>
      intro a b hf h1 h2
      cases a with
      | nil => simpa [mergeF] using h2
      | node ka pa ca sza sma la ra =>
          cases b with
          | nil => simpa [mergeF] using h1
          | node kb pb cb szb smb lb rb => simp [nodes] at hf
  | succ f ih =>
      intro a b hf h1 h2
      cases a with
      | nil => simpa [mergeF] using h2
      | node ka pa ca sza sma la ra =>
          cases b with
          | nil => simpa [mergeF] using h1
          | node kb pb cb szb smb lb rb =>
              simp only [nodes] at hf
              have hra : nodes ra +
                  nodes (Tree.node kb pb cb szb smb lb rb) ≤ f := by
                simp only [nodes]
                omega
              have hlb : nodes (Tree.node ka pa ca sza sma la ra) +
                  nodes lb ≤ f := by
                simp only [nodes]
                omega
              by_cases hp : pa > pb
              · simp only [keysAll, Bool.and_eq_true] at h1
                obtain ⟨⟨hk, hl⟩, hr⟩ := h1
                simp [mergeF, hp, keysAll_recalc, keysAll, hk, hl,
                  ih _ _ hra hr h2]
              · simp only [keysAll, Bool.and_eq_true] at h2
                obtain ⟨⟨hk, hl⟩, hr⟩ := h2
                simp [mergeF, hp, keysAll_recalc, keysAll, hk, hr,
                  ih _ _ hlb h1 hl]

theorem merge_keysAll {p : Int → Bool} (a b : Tree)
    (h1 : keysAll p a = true) (h2 : keysAll p b = true) :
    keysAll p (merge a b) = true :=
  mergeF_keysAll _ a b le_rfl h1 h2

theorem mergeF_cntOk : ∀ (f : Nat) (a b : Tree), nodes a + nodes b ≤ f →
    cntOk a = true → cntOk b = true → cntOk (mergeF f a b) = true := by
  intro f
  induction f with
  | zero =>
      intro a b hf h1 h2
      cases a with
      | nil => simpa [mergeF] using h2
      | node ka pa ca sza sma la ra =>
          cases b with
          | nil => simpa [mergeF] using h1
          | node kb pb cb szb smb lb rb => simp [nodes] at hf
  | succ f ih =>
      intro a b hf h1 h2
      cases a with
      | nil => simpa [mergeF] using h2
      | node ka pa ca sza sma la ra =>
          cases b with
          | nil => simpa [mergeF] using h1
          | node kb pb cb szb smb lb rb =>
              simp only [nodes] at hf
              have hra : nodes ra +
                  nodes (Tree.node kb pb cb szb smb lb rb) ≤ f := by
                simp only [nodes]
                omega
              have hlb : nodes (Tree.node ka pa ca sza sma la ra) +
                  nodes lb ≤ f := by
                simp only [nodes]
                omega
              by_cases hp : pa > pb
              · simp only [cntOk, Bool.and_eq_true] at h1
                obtain ⟨⟨hk, hl⟩, hr⟩ := h1
                simp [mergeF, hp, cntOk_recalc, cntOk, hk, hl,
                  ih _ _ hra hr h2]
              · simp only [cntOk, Bool.and_eq_true] at h2
                obtain ⟨⟨hk, hl⟩, hr⟩ := h2
                simp [mergeF, hp, cntOk_recalc, cntOk, hk, hr,
                  ih _ _ hlb h1 hl]

theorem merge_cntOk (a b : Tree) (h1 : cntOk a = true) (h2 : cntOk b = true) :
    cntOk (merge a b) = true :=
  mergeF_cntOk _ a b le_rfl h1 h2

theorem mergeF_aggOk : ∀ (f : Nat) (a b : Tree), nodes a + nodes b ≤ f →
    aggOk a = true → aggOk b = true → aggOk (mergeF f a b) = true := by
  intro f
  induction f with
  | zero =>
      intro a b hf h1 h2
      cases a with
      | nil => simpa [mergeF] using h2
      | node ka pa ca sza sma la ra =>
          cases b with
          | nil => simpa [mergeF] using h1
          | node kb pb cb szb smb lb rb => simp [nodes] at hf
  | succ f ih =>
      intro a b hf h1 h2
      cases a with
      | nil => simpa [mergeF] using h2
      | node ka pa ca sza sma la ra =>
          cases b with
          | nil => simpa [mergeF] using h1
          | node kb pb cb szb smb lb rb =>
              simp only [nodes] at hf
              have hra : nodes ra +
                  nodes (Tree.node kb pb cb szb smb lb rb) ≤ f := by
                simp only [nodes]
                omega
              have hlb : nodes (Tree.node ka pa ca sza sma la ra) +
                  nodes lb ≤ f := by
                simp only [nodes]
                omega
              by_cases hp : pa > pb
              · simp only [aggOk, Bool.and_eq_true] at h1
                obtain ⟨⟨⟨_, _⟩, hl⟩, hr⟩ := h1
                simp only [mergeF]
                rw [if_pos hp]
                exact aggOk_recalc_node _ _ _ _ _ hl (ih _ _ hra hr h2)
              · simp only [aggOk, Bool.and_eq_true] at h2
                obtain ⟨⟨⟨_, _⟩, hl⟩, hr⟩ := h2
                simp only [mergeF]
                rw [if_neg hp]
                exact aggOk_recalc_node _ _ _ _ _ (ih _ _ hlb h1 hl) hr

theorem merge_aggOk (a b : Tree) (h1 : aggOk a = true) (h2 : aggOk b = true) :
    aggOk (merge a b) = true :=
  mergeF_aggOk _ a b le_rfl h1 h2

theorem mergeF_bstOk : ∀ (f : Nat) (a b : Tree) (m : Int),
    nodes a + nodes b ≤ f → bstOk a = true → bstOk b = true →
    keysAll (fun x => decide (x < m)) a = true →
    keysAll (fun x => decide (m ≤ x)) b = true →
    bstOk (mergeF f a b) = true := by
  intro f
  induction f with
  | zero =>
      intro a b m hf ha hb _ _
      cases a with
      | nil => simpa [mergeF] using hb
      | node ka pa ca sza sma la ra =>
          cases b with
          | nil => simpa [mergeF] using ha
          | node kb pb cb szb smb lb rb => simp [nodes] at hf
  | succ f ih =>
      intro a b m hf ha hb hma hmb
      cases a with
      | nil => simpa [mergeF] using hb
      | node ka pa ca sza sma la ra =>
          cases b with
          | nil => simpa [mergeF] using ha
          | node kb pb cb szb smb lb rb =>
              simp only [nodes] at hf
              have hra : nodes ra +
                  nodes (Tree.node kb pb cb szb smb lb rb) ≤ f := by
                simp only [nodes]
                omega
              have hlb : nodes (Tree.node ka pa ca sza sma la ra) +
                  nodes lb ≤ f := by
                simp only [nodes]
                omega
              by_cases hp : pa > pb
              · simp only [bstOk, Bool.and_eq_true] at ha
                obtain ⟨⟨⟨hal, har⟩, hbl⟩, hbr⟩ := ha
                simp only [keysAll, Bool.and_eq_true] at hma
                obtain ⟨⟨hka, hmal⟩, hmar⟩ := hma
                have hgt : keysAll (fun x => decide (ka < x)) (mergeF f ra
                    (Tree.node kb pb cb szb smb lb rb)) = true := by
                  refine mergeF_keysAll _ _ _ hra har
                    (keysAll_mono (fun x hx => ?_) _ hmb)
                  simp only [decide_eq_true_eq] at hx hka ⊢
                  omega
                simp [mergeF, hp, bstOk_recalc, bstOk, hal, hgt, hbl,
                  ih _ _ m hra hbr hb hmar hmb]
              · simp only [bstOk, Bool.and_eq_true] at hb
                obtain ⟨⟨⟨hbl2, hbr2⟩, hbbl⟩, hbbr⟩ := hb
                simp only [keysAll, Bool.and_eq_true] at hmb
                obtain ⟨⟨hkb, hmbl⟩, hmbr⟩ := hmb
                have hlt : keysAll (fun x => decide (x < kb)) (mergeF f
                    (Tree.node ka pa ca sza sma la ra) lb) = true := by
                  refine mergeF_keysAll _ _ _ hlb
                    (keysAll_mono (fun x hx => ?_) _ hma) hbl2
                  simp only [decide_eq_true_eq] at hx hkb ⊢
                  omega
                simp [mergeF, hp, bstOk_recalc, bstOk, hlt, hbr2, hbbr,
                  ih _ _ m hlb ha hbbl hma hmbl]

theorem merge_bstOk (a b : Tree) (m : Int) (ha : bstOk a = true)
    (hb : bstOk b = true)
    (hma : keysAll (fun x => decide (x < m)) a = true)
    (hmb : keysAll (fun x => decide (m ≤ x)) b = true) :
    bstOk (merge a b) = true :=
  mergeF_bstOk _ a b m le_rfl ha hb hma hmb


/-! Facts about `insert`: the three invariants are preserved, node keys stay
inside any closed predicate, and the stored multiset gains exactly one copy of
the inserted key. -/

theorem insert_aggOk {t : Tree} (key prio : Int) (h : aggOk t = true) :
    aggOk (insert t key prio) = true := by
  have h1 := (split_le_aggOk t key h).1
  have h2 := (split_le_aggOk t key h).2
  have h3 := (split_le_aggOk _ (key - 1) h1).1
  have h4 := (split_le_aggOk _ (key - 1) h1).2
  simp only [insert]
  refine merge_aggOk _ _ (merge_aggOk _ _ h3 ?_) h2
  rcases heq : (split_le (split_le t key).1 (key - 1)).2 with
    _ | ⟨k', p', c', sz', sm', l', r'⟩
  · simp [aggOk, storedSize, storedSum]
  · rw [heq] at h4
    simp only [aggOk, Bool.and_eq_true] at h4
    exact aggOk_recalc_node _ _ _ _ _ h4.1.2 h4.2

theorem insert_cntOk {t : Tree} (key prio : Int) (h : cntOk t = true) :
    cntOk (insert t key prio) = true := by
  have h1 := (split_le_cntOk t key h).1
  have h2 := (split_le_cntOk t key h).2
  have h3 := (split_le_cntOk _ (key - 1) h1).1
  have h4 := (split_le_cntOk _ (key - 1) h1).2
  simp only [insert]
  refine merge_cntOk _ _ (merge_cntOk _ _ h3 ?_) h2
  rcases heq : (split_le (split_le t key).1 (key - 1)).2 with
    _ | ⟨k', p', c', sz', sm', l', r'⟩
  · simp [cntOk]
  · rw [heq] at h4
    simp only [cntOk, Bool.and_eq_true, decide_eq_true_eq] at h4
    obtain ⟨⟨hc', hcl⟩, hcr⟩ := h4
    simp only [cntOk_recalc, cntOk, Bool.and_eq_true, decide_eq_true_eq]
    exact ⟨⟨by omega, hcl⟩, hcr⟩

theorem insert_bstOk {t : Tree} (key prio : Int) (h : bstOk t = true) :
    bstOk (insert t key prio) = true := by
  obtain ⟨hbL, hbR⟩ := split_le_bstOk t key h
  obtain ⟨hLle, hRgt⟩ := split_le_bounds t key h
  obtain ⟨hbll, hbeq⟩ := split_le_bstOk _ (key - 1) hbL
  obtain ⟨hllle, heqgt⟩ := split_le_bounds _ (key - 1) hbL
  have heqle : keysAll (fun x => decide (x ≤ key))
      (split_le (split_le t key).1 (key - 1)).2 = true :=
    (split_le_keysAll _ (key - 1) hLle).2
  simp only [insert]
  have hllt : keysAll (fun x => decide (x < key))
      (split_le (split_le t key).1 (key - 1)).1 = true :=
    keysAll_mono (fun x hx => by
      simp only [decide_eq_true_eq] at hx ⊢; omega) _ hllle
  rcases heq : (split_le (split_le t key).1 (key - 1)).2 with
    _ | ⟨k', p', c', sz', sm', l', r'⟩
  all_goals rw [heq] at hbeq heqgt heqle
  · refine merge_bstOk _ _ (key + 1)
      (merge_bstOk _ _ key hbll (by simp [bstOk, keysAll]) hllt
        (by simp [keysAll]))
      hbR
      (merge_keysAll _ _
        (keysAll_mono (fun x hx => by
          simp only [decide_eq_true_eq] at hx ⊢; omega) _ hllt)
        (by simp [keysAll]))
      (keysAll_mono (fun x hx => by
        simp only [decide_eq_true_eq] at hx ⊢; omega) _ hRgt)
  · have hb2 : bstOk (recalc (.node k' p' (c' + 1) sz' sm' l' r')) = true := by
      rw [bstOk_recalc]
      simp only [bstOk, Bool.and_eq_true] at hbeq ⊢
      exact hbeq
    have hge2 : keysAll (fun x => decide (key ≤ x))
        (recalc (.node k' p' (c' + 1) sz' sm' l' r')) = true := by
      rw [keysAll_recalc]
      have := keysAll_mono (p := fun x => decide (key - 1 < x))
        (q := fun x => decide (key ≤ x))
        (fun x hx => by simp only [decide_eq_true_eq] at hx ⊢; omega) _ heqgt
      simp only [keysAll, Bool.and_eq_true] at this ⊢
      exact this
    have hle2 : keysAll (fun x => decide (x < key + 1))
        (recalc (.node k' p' (c' + 1) sz' sm' l' r')) = true := by
      rw [keysAll_recalc]
      have := keysAll_mono (p := fun x => decide (x ≤ key))
        (q := fun x => decide (x < key + 1))
        (fun x hx => by simp only [decide_eq_true_eq] at hx ⊢; omega) _ heqle
      simp only [keysAll, Bool.and_eq_true] at this ⊢
      exact this
    refine merge_bstOk _ _ (key + 1)
      (merge_bstOk _ _ key hbll hb2 hllt hge2)
      hbR
      (merge_keysAll _ _
        (keysAll_mono (fun x hx => by
          simp only [decide_eq_true_eq] at hx ⊢; omega) _ hllt)
        hle2)
      (keysAll_mono (fun x hx => by
        simp only [decide_eq_true_eq] at hx ⊢; omega) _ hRgt)

theorem insert_keysAll {p : Int → Bool} {t : Tree} (key prio : Int)
    (hp : keysAll p t = true) (hk : p key = true) :
    keysAll p (insert t key prio) = true := by
  have h1 := (split_le_keysAll t key hp).1
  have h2 := (split_le_keysAll t key hp).2
  have h3 := (split_le_keysAll _ (key - 1) h1).1
  have h4 := (split_le_keysAll _ (key - 1) h1).2
  simp only [insert]
  refine merge_keysAll _ _ (merge_keysAll _ _ h3 ?_) h2
  rcases heq : (split_le (split_le t key).1 (key - 1)).2 with
    _ | ⟨k', p', c', sz', sm', l', r'⟩
  · simp [keysAll, hk]
  · rw [heq] at h4
    simp only [keysAll_recalc, keysAll, Bool.and_eq_true] at h4 ⊢
    exact h4

theorem insert_inorder_perm {t : Tree} (key prio : Int)
    (hb : bstOk t = true) (hc : cntOk t = true) :
    inorderKeys (insert t key prio) ~ key :: inorderKeys t := by
  have hsplit2 := split_le_inorder t key
  have hsplit1 := split_le_inorder (split_le t key).1 (key - 1)
  obtain ⟨hbL, _⟩ := split_le_bstOk t key hb
  obtain ⟨hLle, _⟩ := split_le_bounds t key hb
  obtain ⟨_, heqgt⟩ := split_le_bounds _ (key - 1) hbL
  have heqle : keysAll (fun x => decide (x ≤ key))
      (split_le (split_le t key).1 (key - 1)).2 = true :=
    (split_le_keysAll _ (key - 1) hLle).2
  have hcE : cntOk (split_le (split_le t key).1 (key - 1)).2 = true :=
    (split_le_cntOk _ (key - 1) (split_le_cntOk t key hc).1).2
  simp only [insert, merge_inorder]
  rcases heq : (split_le (split_le t key).1 (key - 1)).2 with
    _ | ⟨k', p', c', sz', sm', l', r'⟩
  all_goals rw [heq] at hsplit1
  · simp only [inorderKeys, List.append_nil] at hsplit1
    have : inorderKeys (Tree.node key prio 1 1 key Tree.nil Tree.nil) =
        [key] := by simp [inorderKeys]
    rw [this]
    calc inorderKeys (split_le (split_le t key).1 (key - 1)).1 ++ [key] ++
          inorderKeys (split_le t key).2
        = inorderKeys (split_le (split_le t key).1 (key - 1)).1 ++
          (key :: inorderKeys (split_le t key).2) := by
          simp [List.append_assoc]
      _ ~ key :: (inorderKeys (split_le (split_le t key).1 (key - 1)).1 ++
          inorderKeys (split_le t key).2) := List.perm_middle
      _ = key :: inorderKeys t := by rw [hsplit1, hsplit2]
  · rw [heq] at heqgt heqle hcE
    have hk' : k' = key := by
      have hgt := keysAll_root heqgt
      have hle := keysAll_root heqle
      simp only [decide_eq_true_eq] at hgt hle
      omega
    have hc' : (1 : Int) ≤ c' := by
      simp only [cntOk, Bool.and_eq_true, decide_eq_true_eq] at hcE
      exact hcE.1.1
    have htn : (c' + 1).toNat = c'.toNat + 1 := by omega
    have hin2 : inorderKeys (recalc (.node k' p' (c' + 1) sz' sm' l' r')) =
        inorderKeys l' ++ (key :: List.replicate c'.toNat key) ++
          inorderKeys r' := by
      rw [inorderKeys_recalc]
      simp [inorderKeys, htn, List.replicate_succ, hk']
    rw [hin2]
    have hmid : inorderKeys l' ++ List.replicate c'.toNat key ++
        inorderKeys r' = inorderKeys (Tree.node k' p' c' sz' sm' l' r') := by
      simp [inorderKeys, hk']
    calc inorderKeys (split_le (split_le t key).1 (key - 1)).1 ++
          (inorderKeys l' ++ (key :: List.replicate c'.toNat key) ++
            inorderKeys r') ++ inorderKeys (split_le t key).2
        = (inorderKeys (split_le (split_le t key).1 (key - 1)).1 ++
            inorderKeys l') ++
          (key :: (List.replicate c'.toNat key ++ (inorderKeys r' ++
            inorderKeys (split_le t key).2))) := by
          simp [List.append_assoc]
      _ ~ key :: ((inorderKeys (split_le (split_le t key).1 (key - 1)).1 ++
            inorderKeys l') ++
          (List.replicate c'.toNat key ++ (inorderKeys r' ++
            inorderKeys (split_le t key).2))) := List.perm_middle
      _ = key :: inorderKeys t := by
          rw [← hsplit2, ← hsplit1, ← hmid]
          simp [List.append_assoc]

/-! Invariants and contents of trees built by a sequence of insertions. -/

theorem Inv_nil : Inv Tree.nil :=
  ⟨rfl, rfl, rfl⟩

theorem insert_Inv {t : Tree} (key prio : Int) (h : Inv t) :
    Inv (insert t key prio) :=
  ⟨insert_aggOk key prio h.1, insert_cntOk key prio h.2.1,
    insert_bstOk key prio h.2.2⟩

theorem insertAll_Inv : ∀ (l : List (Int × Int)) (t : Tree), Inv t →
    Inv (insertAll t l) := by
  intro l
  induction l with
  | nil => intro t h; exact h
  | cons kp rest ih =>
      intro t h
      exact ih _ (insert_Inv kp.1 kp.2 h)

theorem insertAll_keysAll {p : Int → Bool} : ∀ (l : List (Int × Int)) (t : Tree),
    keysAll p t = true → (∀ kp ∈ l, p kp.1 = true) →
    keysAll p (insertAll t l) = true := by
  intro l
  induction l with
  | nil => intro t h _; exact h
  | cons kp rest ih =>
      intro t h hl
      exact ih _ (insert_keysAll kp.1 kp.2 h (hl kp (by simp)))
        (fun x hx => hl x (by simp [hx]))

theorem insertAll_perm : ∀ (l : List (Int × Int)) (t : Tree), Inv t →
    inorderKeys (insertAll t l) ~ l.map Prod.fst ++ inorderKeys t := by
  intro l
  induction l with
  | nil => intro t _; simp [insertAll]
  | cons kp rest ih =>
      intro t h
      calc inorderKeys (insertAll (insert t kp.1 kp.2) rest)
          ~ rest.map Prod.fst ++ inorderKeys (insert t kp.1 kp.2) :=
            ih _ (insert_Inv kp.1 kp.2 h)
        _ ~ rest.map Prod.fst ++ (kp.1 :: inorderKeys t) :=
            List.Perm.append_left _ (insert_inorder_perm kp.1 kp.2 h.2.2 h.2.1)
        _ ~ kp.1 :: (rest.map Prod.fst ++ inorderKeys t) := List.perm_middle
        _ = (kp :: rest).map Prod.fst ++ inorderKeys t := by simp

theorem buildTree_Inv (l : List (Int × Int)) : Inv (buildTree l) :=
  insertAll_Inv l Tree.nil Inv_nil

theorem buildTree_perm (l : List (Int × Int)) :
    inorderKeys (buildTree l) ~ l.map Prod.fst := by
  have := insertAll_perm l Tree.nil Inv_nil
  simpa [buildTree, inorderKeys] using this

theorem buildTree_keysAll {p : Int → Bool} (l : List (Int × Int))
    (h : ∀ kp ∈ l, p kp.1 = true) : keysAll p (buildTree l) = true :=
  insertAll_keysAll l Tree.nil rfl h

/-! Stored aggregate fields versus the actual contents of the tree. -/

theorem sum_replicate_int (n : Nat) (x : Int) :
    (List.replicate n x).sum = (n : Int) * x := by
  induction n with
  | zero => simp
  | succ m ih =>
      rw [List.replicate_succ, List.sum_cons, ih]
      push_cast
      ring

theorem storedSize_eq_length : ∀ t, aggOk t = true → cntOk t = true →
    storedSize t = ((inorderKeys t).length : Int) := by
  intro t
  induction t with
  | nil => intro _ _; simp [storedSize, inorderKeys]
  | node k pr c sz sm l r ihl ihr =>
      intro ha hc
      simp only [aggOk, Bool.and_eq_true, beq_iff_eq] at ha
      simp only [cntOk, Bool.and_eq_true, decide_eq_true_eq] at hc
      obtain ⟨⟨⟨hsz, _⟩, hal⟩, har⟩ := ha
      obtain ⟨⟨hc1, hcl⟩, hcr⟩ := hc
      simp only [storedSize, inorderKeys, List.length_append,
        List.length_replicate]
      rw [hsz, ihl hal hcl, ihr har hcr]
      push_cast
      omega

theorem storedSum_eq_sum : ∀ t, aggOk t = true → cntOk t = true →
    storedSum t = (inorderKeys t).sum := by
  intro t
  induction t with
  | nil => intro _ _; simp [storedSum, inorderKeys]
  | node k pr c sz sm l r ihl ihr =>
      intro ha hc
      simp only [aggOk, Bool.and_eq_true, beq_iff_eq] at ha
      simp only [cntOk, Bool.and_eq_true, decide_eq_true_eq] at hc
      obtain ⟨⟨⟨_, hsm⟩, hal⟩, har⟩ := ha
      obtain ⟨⟨hc1, hcl⟩, hcr⟩ := hc
      have hct : (c.toNat : Int) = c := by omega
      simp only [storedSum, inorderKeys, List.sum_append, sum_replicate_int,
        hct]
      rw [hsm, ihl hal hcl, ihr har hcr]
      ring

theorem storedSize_nonneg (t : Tree) (ha : aggOk t = true)
    (hc : cntOk t = true) : 0 ≤ storedSize t := by
  rw [storedSize_eq_length t ha hc]
  exact Int.natCast_nonneg _

theorem storedSum_nonneg (t : Tree) (ha : aggOk t = true) (hc : cntOk t = true)
    (hk : keysAll (fun x => decide (0 ≤ x)) t = true) : 0 ≤ storedSum t := by
  rw [storedSum_eq_sum t ha hc]
  refine List.sum_nonneg ?_
  intro x hx
  have := keysAll_mem_inorder t hk x hx
  simpa using this

/-! Sortedness of the in-order contents. -/

theorem sorted_inorder : ∀ t, bstOk t = true →
    List.Sorted (· ≤ ·) (inorderKeys t) := by
  intro t
  induction t with
  | nil => intro _; simp [inorderKeys]
  | node k pr c sz sm l r ihl ihr =>
      intro hb
      simp only [bstOk, Bool.and_eq_true] at hb
      obtain ⟨⟨⟨hkl, hkr⟩, hbl⟩, hbr⟩ := hb
      simp only [inorderKeys, List.Sorted, List.pairwise_append,
        List.pairwise_replicate, List.mem_append]
      refine ⟨⟨ihl hbl, by simp, ?_⟩, ihr hbr, ?_⟩
      · intro a ha b hb
        have h1 := List.eq_of_mem_replicate hb
        have h2 := keysAll_mem_inorder l hkl a ha
        simp only [decide_eq_true_eq] at h2
        omega
      · intro a ha b hb
        have h2 := keysAll_mem_inorder r hkr b hb
        simp only [decide_eq_true_eq] at h2
        rcases ha with ha | ha
        · have h1 := keysAll_mem_inorder l hkl a ha
          simp only [decide_eq_true_eq] at h1
          omega
        · have := List.eq_of_mem_replicate ha
          omega

theorem pairwise_nodeKeys : ∀ t, bstOk t = true →
    List.Pairwise (· < ·) (nodeKeys t) := by
  intro t
  induction t with
  | nil => intro _; simp [nodeKeys]
  | node k pr c sz sm l r ihl ihr =>
      intro hb
      simp only [bstOk, Bool.and_eq_true] at hb
      obtain ⟨⟨⟨hkl, hkr⟩, hbl⟩, hbr⟩ := hb
      simp only [nodeKeys, List.pairwise_append, List.pairwise_cons,
        List.mem_cons]
      refine ⟨ihl hbl, ⟨?_, ihr hbr⟩, ?_⟩
      · intro b hb
        have := keysAll_mem_node r hkr b hb
        simpa using this
      · intro a ha b hb
        have h1 := keysAll_mem_node l hkl a ha
        simp only [decide_eq_true_eq] at h1
        rcases hb with hb | hb
        · omega
        · have h2 := keysAll_mem_node r hkr b hb
          simp only [decide_eq_true_eq] at h2
          omega

/-! Facts about the greedy reference count on lists. -/

theorem greedyCount_neg : ∀ (l : List Int), ∀ (cap : Int),
    (∀ x ∈ l, 0 ≤ x) → cap < 0 → greedyCount l cap = 0 := by
  intro l
  induction l with
  | nil => intro cap _ _; rfl
  | cons x xs ih =>
      intro cap h hc
      have hx : 0 ≤ x := h x (by simp)
      simp only [greedyCount]
      rw [if_neg (by omega : ¬ x ≤ cap)]

theorem greedyCount_le_length : ∀ (l : List Int) (cap : Int),
    greedyCount l cap ≤ l.length := by
  intro l
  induction l with
  | nil => intro cap; simp [greedyCount]
  | cons x xs ih =>
      intro cap
      simp only [greedyCount, List.length_cons]
      by_cases h : x ≤ cap
      · rw [if_pos h]
        have := ih (cap - x)
        omega
      · rw [if_neg h]
        omega

theorem sum_take_greedyCount : ∀ (l : List Int), ∀ (cap : Int), 0 ≤ cap →
    (∀ x ∈ l, 0 ≤ x) → (l.take (greedyCount l cap)).sum ≤ cap := by
  intro l
  induction l with
  | nil => intro cap hc _; simpa [greedyCount] using hc
  | cons x xs ih =>
      intro cap hc h
      have hx : 0 ≤ x := h x (by simp)
      simp only [greedyCount]
      by_cases hxc : x ≤ cap
      · rw [if_pos hxc]
        simp only [List.take_succ_cons, List.sum_cons]
        have := ih (cap - x) (by omega) (fun a ha => h a (by simp [ha]))
        omega
      · rw [if_neg hxc]
        simpa using hc

theorem greedyCount_max : ∀ (l : List Int), ∀ (k : Nat) (cap : Int),
    (∀ x ∈ l, 0 ≤ x) → k ≤ l.length → (l.take k).sum ≤ cap →
    k ≤ greedyCount l cap := by
  intro l
  induction l with
  | nil =>
      intro k cap _ hk _
      simp only [List.length_nil] at hk
      simp [greedyCount, hk]
  | cons x xs ih =>
      intro k cap h hk hs
      cases k with
      | zero => omega
      | succ j =>
          have hx : 0 ≤ x := h x (by simp)
          have hxs : ∀ a ∈ xs, 0 ≤ a := fun a ha => h a (by simp [ha])
          simp only [List.take_succ_cons, List.sum_cons] at hs
          have hts : 0 ≤ (xs.take j).sum :=
            List.sum_nonneg (fun a ha => hxs a (List.take_subset j xs ha))
          have hxc : x ≤ cap := by omega
          simp only [greedyCount, if_pos hxc]
          have := ih j (cap - x) hxs (by simpa using hk) (by omega)
          omega

theorem greedyCount_append : ∀ (xs : List Int), ∀ (ys : List Int) (cap : Int),
    (∀ x ∈ xs, 0 ≤ x) → (∀ y ∈ ys, 0 ≤ y) →
    greedyCount (xs ++ ys) cap =
      if xs.sum ≤ cap then xs.length + greedyCount ys (cap - xs.sum)
      else greedyCount xs cap := by
  intro xs
  induction xs with
  | nil =>
      intro ys cap _ hys
      by_cases hc : (0 : Int) ≤ cap
      · simp [hc]
      · rw [List.nil_append]
        simp only [List.sum_nil, List.length_nil, greedyCount]
        rw [if_neg hc, greedyCount_neg ys cap hys (by omega)]
  | cons x xs' ih =>
      intro ys cap hxs hys
      have hx0 : 0 ≤ x := hxs x (by simp)
      have hxs' : ∀ a ∈ xs', 0 ≤ a := fun a ha => hxs a (by simp [ha])
      by_cases hx : x ≤ cap
      · have hstep : greedyCount ((x :: xs') ++ ys) cap =
            greedyCount (xs' ++ ys) (cap - x) + 1 := by
          rw [List.cons_append]
          simp [greedyCount, if_pos hx]
        rw [hstep, ih ys (cap - x) hxs' hys, List.sum_cons, List.length_cons]
        by_cases h2 : xs'.sum ≤ cap - x
        · rw [if_pos h2, if_pos (by omega : x + xs'.sum ≤ cap)]
          have harg : cap - x - xs'.sum = cap - (x + xs'.sum) := by ring
          rw [harg]
          omega
        · rw [if_neg h2, if_neg (by omega : ¬ (x + xs'.sum ≤ cap))]
          simp only [greedyCount, if_pos hx]
      · have hs : 0 ≤ xs'.sum := List.sum_nonneg hxs'
        have hstep : greedyCount ((x :: xs') ++ ys) cap = 0 := by
          rw [List.cons_append]
          simp [greedyCount, if_neg hx]
        rw [hstep, List.sum_cons, if_neg (by omega : ¬ (x + xs'.sum ≤ cap)),
          greedyCount, if_neg hx]

theorem greedyCount_replicate_all (k : Int) (hk : 1 ≤ k) :
    ∀ (n : Nat) (ys : List Int) (rem : Int), (n : Int) * k ≤ rem →
    greedyCount (List.replicate n k ++ ys) rem =
      n + greedyCount ys (rem - (n : Int) * k) := by
  intro n
  induction n with
  | zero => intro ys rem _; simp
  | succ m ih =>
      intro ys rem h
      have hmk : (0 : Int) ≤ (m : Int) * k :=
        mul_nonneg (by positivity) (by omega)
      have hexp : ((m + 1 : Nat) : Int) * k = (m : Int) * k + k := by
        push_cast
        ring
      rw [hexp] at h
      have hkr : k ≤ rem := by omega
      have hstep : greedyCount (List.replicate (m + 1) k ++ ys) rem =
          greedyCount (List.replicate m k ++ ys) (rem - k) + 1 := by
        rw [List.replicate_succ, List.cons_append]
        simp [greedyCount, if_pos hkr]
      rw [hstep, ih ys (rem - k) (by omega)]
      have harg : rem - k - (m : Int) * k = rem - ((m + 1 : Nat) : Int) * k := by
        push_cast
        ring
      rw [harg]
      omega

theorem greedyCount_replicate_stop (k : Int) (hk : 1 ≤ k) :
    ∀ (j : Nat), ∀ (n : Nat) (ys : List Int) (rem : Int), 0 ≤ rem →
    (j : Int) * k ≤ rem → rem < ((j : Int) + 1) * k → j < n →
    greedyCount (List.replicate n k ++ ys) rem = j := by
  intro j
  induction j with
  | zero =>
      intro n ys rem h0 _ hj1 hjn
      obtain ⟨m, rfl⟩ : ∃ m, n = m + 1 := ⟨n - 1, by omega⟩
      have hrk : rem < k := by
        have h1 : ((0 : Nat) : Int) + 1 = 1 := by norm_num
        rw [h1, one_mul] at hj1
        exact hj1
      rw [List.replicate_succ, List.cons_append]
      simp [greedyCount, if_neg (by omega : ¬ k ≤ rem)]
  | succ i ih =>
      intro n ys rem h0 hj hj1 hjn
      obtain ⟨m, rfl⟩ : ∃ m, n = m + 1 := ⟨n - 1, by omega⟩
      have hik : (0 : Int) ≤ (i : Int) * k :=
        mul_nonneg (by positivity) (by omega)
      have hexp : ((i + 1 : Nat) : Int) * k = (i : Int) * k + k := by
        push_cast
        ring
      rw [hexp] at hj
      have hexp2 : ((i + 1 : Nat) : Int) + 1 = ((i : Int) + 1) + 1 := by
        push_cast
        ring
      rw [hexp2] at hj1
      have hkr : k ≤ rem := by omega
      have hstep : greedyCount (List.replicate (m + 1) k ++ ys) rem =
          greedyCount (List.replicate m k ++ ys) (rem - k) + 1 := by
        rw [List.replicate_succ, List.cons_append]
        simp [greedyCount, if_pos hkr]
      rw [hstep, ih m ys (rem - k) (by omega) (by omega)
        (by nlinarith [hj1]) (by omega)]

/-! Analytic facts about the query descent `maxGo`. -/

theorem maxGo_ge : ∀ t, aggOk t = true → cntOk t = true →
    ∀ (kept r : Int), kept ≤ maxGo t kept r := by
  intro t
  induction t with
  | nil => intro _ _ kept r; simp [maxGo]
  | node k pr c sz sm l r ihl ihr =>
      intro ha hc kept rem
      simp only [aggOk, Bool.and_eq_true, beq_iff_eq] at ha
      simp only [cntOk, Bool.and_eq_true, decide_eq_true_eq] at hc
      obtain ⟨⟨⟨hsz, hsm⟩, hal⟩, har⟩ := ha
      obtain ⟨⟨hc1, hcl⟩, hcr⟩ := hc
      have hlsz : 0 ≤ storedSize l := storedSize_nonneg l hal hcl
      simp only [maxGo]
      by_cases h1 : storedSum l > rem
      · rw [if_pos h1]
        exact ihl hal hcl kept rem
      · rw [if_neg h1]
        by_cases h2 : k ≤ 0
        · rw [if_pos h2]; omega
        · rw [if_neg h2]
          by_cases h3 : Int.fdiv (rem - storedSum l) k ≤ 0
          · rw [if_pos h3]; omega
          · rw [if_neg h3]
            by_cases h4 : min (Int.fdiv (rem - storedSum l) k) c < c
            · rw [if_pos h4]; omega
            · rw [if_neg h4]
              have h5 := ihr har hcr
                (kept + storedSize l + min (Int.fdiv (rem - storedSum l) k) c)
                (rem - storedSum l -
                  min (Int.fdiv (rem - storedSum l) k) c * k)
              omega

theorem maxGo_le_size : ∀ t, aggOk t = true → cntOk t = true →
    ∀ (kept r : Int), maxGo t kept r ≤ kept + storedSize t := by
  intro t
  induction t with
  | nil => intro _ _ kept r; simp [maxGo, storedSize]
  | node k pr c sz sm l r ihl ihr =>
      intro ha hc kept rem
      simp only [aggOk, Bool.and_eq_true, beq_iff_eq] at ha
      simp only [cntOk, Bool.and_eq_true, decide_eq_true_eq] at hc
      obtain ⟨⟨⟨hsz, hsm⟩, hal⟩, har⟩ := ha
      obtain ⟨⟨hc1, hcl⟩, hcr⟩ := hc
      have hlsz : 0 ≤ storedSize l := storedSize_nonneg l hal hcl
      have hrsz : 0 ≤ storedSize r := storedSize_nonneg r har hcr
      have hszv : storedSize (Tree.node k pr c sz sm l r) =
          storedSize l + c + storedSize r := hsz
      rw [hszv]
      simp only [maxGo]
      by_cases h1 : storedSum l > rem
      · rw [if_pos h1]
        have := ihl hal hcl kept rem
        omega
      · rw [if_neg h1]
        by_cases h2 : k ≤ 0
        · rw [if_pos h2]; omega
        · rw [if_neg h2]
          by_cases h3 : Int.fdiv (rem - storedSum l) k ≤ 0
          · rw [if_pos h3]; omega
          · rw [if_neg h3]
            by_cases h4 : min (Int.fdiv (rem - storedSum l) k) c < c
            · rw [if_pos h4]
              have : min (Int.fdiv (rem - storedSum l) k) c ≤ c := by omega
              omega
            · rw [if_neg h4]
              have h5 := ihr har hcr
                (kept + storedSize l + min (Int.fdiv (rem - storedSum l) k) c)
                (rem - storedSum l -
                  min (Int.fdiv (rem - storedSum l) k) c * k)
              have : min (Int.fdiv (rem - storedSum l) k) c ≤ c := by omega
              omega

theorem maxGo_neg_cap : ∀ t, aggOk t = true → cntOk t = true →
    keysAll (fun x => decide (0 ≤ x)) t = true →
    ∀ (kept cap : Int), cap < 0 → maxGo t kept cap = kept := by
  intro t
  induction t with
  | nil => intro _ _ _ kept cap _; rfl
  | node k pr c sz sm l r ihl ihr =>
      intro ha hc hk kept cap hcap
      simp only [aggOk, Bool.and_eq_true, beq_iff_eq] at ha
      simp only [cntOk, Bool.and_eq_true, decide_eq_true_eq] at hc
      simp only [keysAll, Bool.and_eq_true] at hk
      obtain ⟨⟨⟨hsz, hsm⟩, hal⟩, har⟩ := ha
      obtain ⟨⟨hc1, hcl⟩, hcr⟩ := hc
      obtain ⟨⟨hk0, hkl⟩, hkr⟩ := hk
      have hls : 0 ≤ storedSum l := storedSum_nonneg l hal hcl hkl
      simp only [maxGo]
      rw [if_pos (by omega : storedSum l > cap)]
      exact ihl hal hcl hkl kept cap hcap

theorem maxGo_mono : ∀ t, aggOk t = true → cntOk t = true →
    ∀ (kept r1 r2 : Int), r1 ≤ r2 → maxGo t kept r1 ≤ maxGo t kept r2 := by
  intro t
  induction t with
  | nil => intro _ _ kept r1 r2 _; simp [maxGo]
  | node k pr c sz sm l r ihl ihr =>
      intro ha hc kept r1 r2 h12
      have haN := ha
      have hcN := hc
      simp only [aggOk, Bool.and_eq_true, beq_iff_eq] at ha
      simp only [cntOk, Bool.and_eq_true, decide_eq_true_eq] at hc
      obtain ⟨⟨⟨hsz, hsm⟩, hal⟩, har⟩ := ha
      obtain ⟨⟨hc1, hcl⟩, hcr⟩ := hc
      have hlsz : 0 ≤ storedSize l := storedSize_nonneg l hal hcl
      simp only [maxGo]
      by_cases hA : storedSum l > r2
      · rw [if_pos hA, if_pos (by omega : storedSum l > r1)]
        exact ihl hal hcl kept r1 r2 h12
      · rw [if_neg hA]
        by_cases hB : storedSum l > r1
        · rw [if_pos hB]
          have hle1 : maxGo l kept r1 ≤ kept + storedSize l :=
            maxGo_le_size l hal hcl kept r1
          by_cases h2 : k ≤ 0
          · rw [if_pos h2]; omega
          · rw [if_neg h2]
            by_cases h3 : Int.fdiv (r2 - storedSum l) k ≤ 0
            · rw [if_pos h3]; omega
            · rw [if_neg h3]
              by_cases h4 : min (Int.fdiv (r2 - storedSum l) k) c < c
              · rw [if_pos h4]
                have : 0 ≤ min (Int.fdiv (r2 - storedSum l) k) c := by omega
                omega
              · rw [if_neg h4]
                have h5 := maxGo_ge r har hcr
                  (kept + storedSize l +
                    min (Int.fdiv (r2 - storedSum l) k) c)
                  (r2 - storedSum l -
                    min (Int.fdiv (r2 - storedSum l) k) c * k)
                have : 0 ≤ min (Int.fdiv (r2 - storedSum l) k) c := by omega
                omega
        · rw [if_neg hB]
          by_cases h2 : k ≤ 0
          · rw [if_pos h2]; omega
          · rw [if_neg h2]
            have hk0 : (0 : Int) < k := by omega
            have hfd : Int.fdiv (r1 - storedSum l) k ≤
                Int.fdiv (r2 - storedSum l) k := by
              rw [Int.fdiv_eq_ediv _ (by omega : (0 : Int) ≤ k),
                Int.fdiv_eq_ediv _ (by omega : (0 : Int) ≤ k)]
              exact Int.ediv_le_ediv hk0 (by omega)
            by_cases hC1 : Int.fdiv (r1 - storedSum l) k ≤ 0
            · rw [if_pos hC1]
              by_cases hC2 : Int.fdiv (r2 - storedSum l) k ≤ 0
              · rw [if_pos hC2]; omega
              · rw [if_neg hC2]
                by_cases hD2 : min (Int.fdiv (r2 - storedSum l) k) c < c
                · rw [if_pos hD2]
                  have : 0 ≤ min (Int.fdiv (r2 - storedSum l) k) c := by
                    omega
                  omega
                · rw [if_neg hD2]
                  have h5 := maxGo_ge r har hcr
                    (kept + storedSize l +
                      min (Int.fdiv (r2 - storedSum l) k) c)
                    (r2 - storedSum l -
                      min (Int.fdiv (r2 - storedSum l) k) c * k)
                  have : 0 ≤ min (Int.fdiv (r2 - storedSum l) k) c := by
                    omega
                  omega
            · rw [if_neg hC1]
              have hC2 : ¬ Int.fdiv (r2 - storedSum l) k ≤ 0 := by omega
              rw [if_neg hC2]
              by_cases hD1 : min (Int.fdiv (r1 - storedSum l) k) c < c
              · rw [if_pos hD1]
                by_cases hD2 : min (Int.fdiv (r2 - storedSum l) k) c < c
                · rw [if_pos hD2]; omega
                · rw [if_neg hD2]
                  have h5 := maxGo_ge r har hcr
                    (kept + storedSize l +
                      min (Int.fdiv (r2 - storedSum l) k) c)
                    (r2 - storedSum l -
                      min (Int.fdiv (r2 - storedSum l) k) c * k)
                  omega
              · rw [if_neg hD1]
                have hD2 : ¬ min (Int.fdiv (r2 - storedSum l) k) c < c := by
                  omega
                rw [if_neg hD2]
                have e1 : min (Int.fdiv (r1 - storedSum l) k) c = c := by
                  omega
                have e2 : min (Int.fdiv (r2 - storedSum l) k) c = c := by
                  omega
                rw [e1, e2]
                have h6 := ihr har hcr (kept + storedSize l + c)
                  (r1 - storedSum l - c * k) (r2 - storedSum l - c * k)
                  (by omega)
                omega

/-! The query descent computes the greedy count of the sorted contents, as
long as every stored key is positive. -/

theorem maxGo_eq_greedy : ∀ t, aggOk t = true → cntOk t = true →
    keysAll (fun x => decide (1 ≤ x)) t = true →
    ∀ (kept cap : Int),
    maxGo t kept cap = kept + (greedyCount (inorderKeys t) cap : Int) := by
  intro t
  induction t with
  | nil => intro _ _ _ kept cap; simp [maxGo, inorderKeys, greedyCount]
  | node k pr c sz sm l r ihl ihr =>
      intro ha hc hk kept cap
      simp only [aggOk, Bool.and_eq_true, beq_iff_eq] at ha
      simp only [cntOk, Bool.and_eq_true, decide_eq_true_eq] at hc
      simp only [keysAll, Bool.and_eq_true] at hk
      obtain ⟨⟨⟨hsz, hsm⟩, hal⟩, har⟩ := ha
      obtain ⟨⟨hc1, hcl⟩, hcr⟩ := hc
      obtain ⟨⟨hk1, hkl⟩, hkr⟩ := hk
      have hk1' : (1 : Int) ≤ k := by simpa using hk1
      have hLs : storedSum l = (inorderKeys l).sum :=
        storedSum_eq_sum l hal hcl
      have hLl : storedSize l = ((inorderKeys l).length : Int) :=
        storedSize_eq_length l hal hcl
      have hLpos : ∀ x ∈ inorderKeys l, 0 ≤ x := by
        intro x hx
        have := keysAll_mem_inorder l hkl x hx
        simp only [decide_eq_true_eq] at this
        omega
      have hRpos : ∀ x ∈ inorderKeys r, 0 ≤ x := by
        intro x hx
        have := keysAll_mem_inorder r hkr x hx
        simp only [decide_eq_true_eq] at this
        omega
      have hMRpos : ∀ x ∈ List.replicate c.toNat k ++ inorderKeys r,
          0 ≤ x := by
        intro x hx
        rcases List.mem_append.mp hx with hx | hx
        · rw [List.eq_of_mem_replicate hx]; omega
        · exact hRpos x hx
      have hInList : inorderKeys (Tree.node k pr c sz sm l r) =
          inorderKeys l ++ (List.replicate c.toNat k ++ inorderKeys r) := by
        simp [inorderKeys, List.append_assoc]
      rw [hInList, greedyCount_append (inorderKeys l) _ cap hLpos hMRpos]
      simp only [maxGo]
      by_cases h1 : storedSum l > cap
      · rw [if_pos h1, if_neg (by omega : ¬ (inorderKeys l).sum ≤ cap)]
        exact ihl hal hcl hkl kept cap
      · rw [if_neg h1, if_pos (by omega : (inorderKeys l).sum ≤ cap)]
        rw [if_neg (by omega : ¬ k ≤ 0), ← hLs]
        have hrem0 : 0 ≤ cap - storedSum l := by omega
        have hfd : Int.fdiv (cap - storedSum l) k = (cap - storedSum l) / k :=
          Int.fdiv_eq_ediv _ (by omega)
        rw [hfd]
        have hD0 : 0 ≤ (cap - storedSum l) / k :=
          Int.ediv_nonneg hrem0 (by omega)
        have hD1 : (cap - storedSum l) / k * k ≤ cap - storedSum l :=
          Int.ediv_mul_le _ (by omega)
        have hD2 : cap - storedSum l < ((cap - storedSum l) / k + 1) * k :=
          Int.lt_ediv_add_one_mul_self _ (by omega)
        have hct : (c.toNat : Int) = c := by omega
        by_cases h3 : (cap - storedSum l) / k ≤ 0
        · rw [if_pos h3]
          have hDz : (cap - storedSum l) / k = 0 := by omega
          rw [hDz] at hD2
          norm_num at hD2
          rw [greedyCount_replicate_stop k hk1' 0 c.toNat (inorderKeys r)
            (cap - storedSum l) hrem0 (by push_cast; omega)
            (by push_cast; omega) (by omega)]
          rw [hLl]
          push_cast
          ring
        · rw [if_neg h3]
          by_cases h4 : min ((cap - storedSum l) / k) c < c
          · rw [if_pos h4]
            have hDc : (cap - storedSum l) / k < c := by omega
            have hminD : min ((cap - storedSum l) / k) c =
                (cap - storedSum l) / k := by omega
            rw [hminD]
            have hDt : (((cap - storedSum l) / k).toNat : Int) =
                (cap - storedSum l) / k := by omega
            rw [greedyCount_replicate_stop k hk1'
              ((cap - storedSum l) / k).toNat c.toNat (inorderKeys r)
              (cap - storedSum l) hrem0 (by rw [hDt]; exact hD1)
              (by rw [hDt]; exact hD2) (by omega)]
            rw [hLl]
            push_cast
            omega
          · rw [if_neg h4]
            have hcD : c ≤ (cap - storedSum l) / k := by omega
            have hminc : min ((cap - storedSum l) / k) c = c := by omega
            rw [hminc]
            have hck : c * k ≤ cap - storedSum l :=
              le_trans (mul_le_mul_of_nonneg_right hcD (by omega)) hD1
            rw [greedyCount_replicate_all k hk1' c.toNat (inorderKeys r)
              (cap - storedSum l) (by rw [hct]; exact hck)]
            rw [hct, ihr har hcr hkr, hLl]
            push_cast
            omega

/-- The query on the whole tree, stated with `kept = 0`. -/
theorem max_count_eq_greedy (t : Tree) (ha : aggOk t = true)
    (hc : cntOk t = true) (hk : keysAll (fun x => decide (1 ≤ x)) t = true)
    (cap : Int) :
    max_count_within_sum t cap = (greedyCount (inorderKeys t) cap : Int) := by
  rw [max_count_within_sum, maxGo_eq_greedy t ha hc hk 0 cap]
  ring

/-! The spec's longest-prefix description agrees with the greedy count on
lists of non-negative values. -/

theorem foldr_max_le (L : List Nat) (m : Nat) (h : ∀ x ∈ L, x ≤ m) :
    L.foldr max 0 ≤ m := by
  induction L with
  | nil => simp
  | cons a L' ih =>
      simp only [List.foldr_cons]
      have h1 := h a (by simp)
      have h2 := ih (fun x hx => h x (by simp [hx]))
      omega

theorem le_foldr_max (L : List Nat) (m : Nat) (h : m ∈ L) :
    m ≤ L.foldr max 0 := by
  induction L with
  | nil => simp at h
  | cons a L' ih =>
      simp only [List.foldr_cons]
      rcases List.mem_cons.mp h with h | h
      · omega
      · have := ih h
        omega

theorem longestFitLen_eq_greedyCount (l : List Int) (cap : Int)
    (h : ∀ x ∈ l, 0 ≤ x) : longestFitLen l cap = greedyCount l cap := by
  by_cases hc : 0 ≤ cap
  · have hg_le : greedyCount l cap ≤ l.length := greedyCount_le_length l cap
    have hg_sum : (l.take (greedyCount l cap)).sum ≤ cap :=
      sum_take_greedyCount l cap hc h
    have hmem : greedyCount l cap ∈ (List.range (l.length + 1)).filter
        (fun kk => decide ((l.take kk).sum ≤ cap)) := by
      rw [List.mem_filter, List.mem_range]
      exact ⟨by omega, by simpa using hg_sum⟩
    have hub : ∀ x ∈ (List.range (l.length + 1)).filter
        (fun kk => decide ((l.take kk).sum ≤ cap)), x ≤ greedyCount l cap := by
      intro x hx
      rw [List.mem_filter, List.mem_range] at hx
      exact greedyCount_max l x cap h (by omega) (by simpa using hx.2)
    rw [longestFitLen]
    exact le_antisymm (foldr_max_le _ _ hub) (le_foldr_max _ _ hmem)
  · have hg : greedyCount l cap = 0 := greedyCount_neg l cap h (by omega)
    rw [hg, longestFitLen]
    have hfil : (List.range (l.length + 1)).filter
        (fun kk => decide ((l.take kk).sum ≤ cap)) = [] := by
      rw [List.filter_eq_nil_iff]
      intro a _
      simp only [decide_eq_true_eq, not_le]
      have : 0 ≤ (l.take a).sum :=
        List.sum_nonneg (fun x hx => h x (List.take_subset _ _ hx))
      omega
    rw [hfil]
    rfl

/-! The driver agrees with the per-index description of the claim, as long as
all values are non-negative. -/

theorem driverGo_spec (budget : Int) : ∀ (items : List (Int × Int)) (t : Tree)
    (i0 : Nat), Inv t → keysAll (fun x => decide (0 ≤ x)) t = true →
    (∀ vp ∈ items, 0 ≤ vp.1) →
    driverGo budget items t (i0 : Int) =
      (List.range items.length).map (fun (j : Nat) =>
        ((i0 + j : Nat) : Int) - max_count_within_sum
          (insertAll t (items.take j)) (budget - (items.getD j (0, 0)).1)) := by
  intro items
  induction items with
  | nil => intro t i0 _ _ _; simp [driverGo]
  | cons vp rest ih =>
      intro t i0 hInv hNN hpos
      have hv0 : 0 ≤ vp.1 := hpos vp (by simp)
      have hcast : ((i0 + 1 : Nat) : Int) = (i0 : Int) + 1 := by push_cast; ring
      have hstep : driverGo budget (vp :: rest) t (i0 : Int) =
          ((i0 : Int) - max_count_within_sum t (budget - vp.1)) ::
          driverGo budget rest (insert t vp.1 vp.2) ((i0 : Int) + 1) := by
        simp only [driverGo]
        by_cases hcap : budget - vp.1 < 0
        · rw [if_pos hcap]
          rw [max_count_within_sum,
            maxGo_neg_cap t hInv.1 hInv.2.1 hNN 0 _ hcap]
          norm_num
        · rw [if_neg hcap]
      rw [hstep, ← hcast,
        ih (insert t vp.1 vp.2) (i0 + 1) (insert_Inv _ _ hInv)
          (insert_keysAll _ _ hNN (by simpa using hv0))
          (fun x hx => hpos x (by simp [hx]))]
      rw [List.length_cons, List.range_succ_eq_map, List.map_cons,
        List.map_map]
      congr 1
      apply List.map_congr_left
      intro j _
      simp only [Function.comp_apply, List.take_succ_cons,
        List.getD_cons_succ, insertAll]
      congr 1
      omega

/-! Claim theorems. -/

/-- Claim C1, counterexample: after inserting keys 0, 0, 4 with the first
drawn priority larger than the second (so the 0-node becomes the root), the
stored multiset is [0, 0, 4] and the longest prefix of its sorted sequence of
sum at most 0 has length 2, yet the query at cap 0 returns 0: the claim fails
as stated for multisets containing key 0. -/
theorem claim_C1_counterexample :
    inorderKeys (buildTree [(0, 1), (0, 0), (4, 0)]) = [0, 0, 4] ∧
    longestFitLen [0, 0, 4] 0 = 2 ∧
    max_count_within_sum (buildTree [(0, 1), (0, 0), (4, 0)]) 0 = 0 :=
  ⟨by decide, by decide, by decide⟩

/-- Claim C1, amended: when every inserted key is at least 1,
`max_count_within_sum cap` equals the length of the longest prefix of the
ascending-sorted stored sequence (with duplicates) whose cumulative sum is at
most `cap`; the in-order contents are exactly that sorted sequence of the
inserted keys, and the empty structure answers 0 for every cap. -/
theorem claim_C1_greedy_optimal (l : List (Int × Int)) (cap : Int)
    (h : ∀ kp ∈ l, 1 ≤ kp.1) :
    max_count_within_sum (buildTree l) cap =
      (longestFitLen (inorderKeys (buildTree l)) cap : Int) ∧
    List.Sorted (· ≤ ·) (inorderKeys (buildTree l)) ∧
    inorderKeys (buildTree l) ~ l.map Prod.fst ∧
    max_count_within_sum Tree.nil cap = 0 := by
  obtain ⟨ha, hc, hb⟩ := buildTree_Inv l
  have hk : keysAll (fun x => decide (1 ≤ x)) (buildTree l) = true :=
    buildTree_keysAll l (fun kp hkp => by simpa using h kp hkp)
  have hpos : ∀ x ∈ inorderKeys (buildTree l), 0 ≤ x := by
    intro x hx
    have := keysAll_mem_inorder _ hk x hx
    simp only [decide_eq_true_eq] at this
    omega
  refine ⟨?_, sorted_inorder _ hb, buildTree_perm l, rfl⟩
  rw [longestFitLen_eq_greedyCount _ cap hpos]
  exact max_count_eq_greedy _ ha hc hk cap

/-- Witness for the amended C1 at the spec's scenario 2: insert [5, 3, 8, 3],
query cap 8; the sorted contents are [3, 3, 5, 8] and the answer is 2. -/
theorem claim_C1_witness :
    max_count_within_sum (buildTree [(5, 3), (3, 1), (8, 4), (3, 2)]) 8 =
      (longestFitLen
        (inorderKeys (buildTree [(5, 3), (3, 1), (8, 4), (3, 2)])) 8 : Int) ∧
    max_count_within_sum (buildTree [(5, 3), (3, 1), (8, 4), (3, 2)]) 8 = 2 :=
  ⟨(claim_C1_greedy_optimal [(5, 3), (3, 1), (8, 4), (3, 2)] 8 (by decide)).1,
    by decide⟩

/-- Claim C2, counterexample: insert [0, 0, 4] with the priority of the first
0 above that of 4; the multiset holds two copies of 0 but the query at cap 0
returns 0, not 2: the `key <= 0` guard stops the descent at the 0-root
without counting its copies. -/
theorem claim_C2_counterexample :
    max_count_within_sum (buildTree [(0, 1), (0, 0), (4, 0)]) 0 = 0 ∧
    max_count_within_sum (buildTree [(0, 1), (0, 0), (4, 0)]) 0 ≠ 2 :=
  ⟨by decide, by decide⟩

/-- Claim C2, amended: copies of key 0 are counted only when the 0-node lies
inside a fully afforded left subtree; when the descent reaches the 0-node as
current node it stops without counting them. Concretely, after inserting
[0, 0, 4], `count_within_budget 0` is 2 when the 4-node's priority is at
least the 0-node's (the zeros sit in its left subtree) and 0 when the 0-node
wins the priority comparison and is the root. -/
theorem claim_C2_zero_key (p1 q p2 : Int) :
    max_count_within_sum (buildTree [(0, p1), (0, q), (4, p2)]) 0 =
      if p1 > p2 then 0 else 2 := by
  have h1 : insert Tree.nil 0 p1 = Tree.node 0 p1 1 1 0 Tree.nil Tree.nil := by
    simp [insert, split_le, merge, mergeF, nodes]
  have h2 : insert (Tree.node 0 p1 1 1 0 Tree.nil Tree.nil) 0 q =
      Tree.node 0 p1 2 2 0 Tree.nil Tree.nil := by
    simp [insert, split_le, merge, mergeF, nodes, recalc, storedSize,
      storedSum]
  have h3 : buildTree [(0, p1), (0, q), (4, p2)] =
      merge (Tree.node 0 p1 2 2 0 Tree.nil Tree.nil)
        (Tree.node 4 p2 1 1 4 Tree.nil Tree.nil) := by
    rw [buildTree, insertAll, insertAll, insertAll, insertAll, h1, h2]
    rw [insert]
    simp [split_le, recalc, storedSize, storedSum]
    rw [show merge (Tree.node 0 p1 2 2 0 Tree.nil Tree.nil)
        (Tree.node 4 p2 1 1 4 Tree.nil Tree.nil) =
        mergeF (1 + 1) (Tree.node 0 p1 2 2 0 Tree.nil Tree.nil)
          (Tree.node 4 p2 1 1 4 Tree.nil Tree.nil) from rfl]
    simp [merge, mergeF, nodes, mergeF_nil_right]
  rw [h3]
  have hfuel : merge (Tree.node 0 p1 2 2 0 Tree.nil Tree.nil)
      (Tree.node 4 p2 1 1 4 Tree.nil Tree.nil) =
      mergeF (1 + 1) (Tree.node 0 p1 2 2 0 Tree.nil Tree.nil)
        (Tree.node 4 p2 1 1 4 Tree.nil Tree.nil) := rfl
  rw [hfuel]
  by_cases hp : p1 > p2
  · rw [if_pos hp]
    have hm : mergeF (1 + 1) (Tree.node 0 p1 2 2 0 Tree.nil Tree.nil)
        (Tree.node 4 p2 1 1 4 Tree.nil Tree.nil) =
        Tree.node 0 p1 2 3 4 Tree.nil
          (Tree.node 4 p2 1 1 4 Tree.nil Tree.nil) := by
      simp only [mergeF]
      rw [if_pos hp]
      simp [mergeF, recalc, storedSize, storedSum]
    rw [hm]
    simp [max_count_within_sum, maxGo, storedSum, storedSize]
  · rw [if_neg hp]
    have hm : mergeF (1 + 1) (Tree.node 0 p1 2 2 0 Tree.nil Tree.nil)
        (Tree.node 4 p2 1 1 4 Tree.nil Tree.nil) =
        Tree.node 4 p2 1 3 4 (Tree.node 0 p1 2 2 0 Tree.nil Tree.nil)
          Tree.nil := by
      simp only [mergeF]
      rw [if_neg hp]
      simp [mergeF, recalc, storedSize, storedSum]
    rw [hm]
    have hfd : Int.fdiv 0 4 = 0 := rfl
    simp [max_count_within_sum, maxGo, storedSum, storedSize, hfd]

/-- Claim C3, counterexample: with budget 0 and values [-5, 1, 3] (priorities
0, 1, 0), the driver returns [0, 1, 2]; but at index 2 the capacity is -3 and
the query against the multiset of the two earlier values returns 2, so the
claimed value `i - count_within_budget(budget - v[i])` is 0, not 2: the
driver's `cap < 0` shortcut is not equivalent to querying when negative
values are stored. -/
theorem claim_C3_counterexample :
    getMinRemovalsWithinBudget 0 [(-5, 0), (1, 1), (3, 0)] = [0, 1, 2] ∧
    (2 : Int) -
      max_count_within_sum (buildTree [(-5, 0), (1, 1)]) (0 - 3) = 0 :=
  ⟨by decide, by decide⟩

/-- Claim C3, amended: when every cart value is non-negative, the driver's
result at index `i` is `i` minus the query at capacity `budget - v[i]`
against the multiset of the first `i` values, the current value being
inserted only after the query (so also in the short-circuited `cap < 0`
branch, where the query would return 0 anyway). -/
theorem claim_C3_driver (budget : Int) (items : List (Int × Int))
    (h : ∀ vp ∈ items, 0 ≤ vp.1) :
    getMinRemovalsWithinBudget budget items = specRemovals budget items := by
  rw [getMinRemovalsWithinBudget, specRemovals]
  have hmain := driverGo_spec budget items Tree.nil 0 Inv_nil rfl h
  simpa [buildTree] using hmain

/-- Witness for the amended C3 at the spec's streaming scenario: values
[4, 2, 7, 1] with budget 6 give removals [0, 0, 2, 2]. -/
theorem claim_C3_witness :
    getMinRemovalsWithinBudget 6 [(4, 5), (2, 9), (7, 2), (1, 7)] =
      [0, 0, 2, 2] := by
  have h := claim_C3_driver 6 [(4, 5), (2, 9), (7, 2), (1, 7)] (by decide)
  rw [h]
  decide

/-- Claim C4: after any sequence of insertions (any keys, any priorities),
every node's stored `size` equals `left.size + cnt + right.size` and its
stored `sum` equals `left.sum + key*cnt + right.sum`. -/
theorem claim_C4_aggregates (l : List (Int × Int)) :
    aggOk (buildTree l) = true :=
  (buildTree_Inv l).1

/-- Claim C5: after any sequence of insertions the tree is a strict binary
search tree: all keys left of a node are below its key and all keys right of
it above; consequently the node keys are strictly increasing in symmetric
order (each distinct key in exactly one node) and the in-order contents,
each key repeated `cnt` times, are non-decreasing. -/
theorem claim_C5_bst_order (l : List (Int × Int)) :
    bstOk (buildTree l) = true ∧
    List.Pairwise (· < ·) (nodeKeys (buildTree l)) ∧
    List.Sorted (· ≤ ·) (inorderKeys (buildTree l)) := by
  obtain ⟨_, _, hb⟩ := buildTree_Inv l
  exact ⟨hb, pairwise_nodeKeys _ hb, sorted_inorder _ hb⟩

/-- Claim C6: on a multiset of non-negative keys, any negative capacity makes
the query return 0 without error: the descent keeps moving left past every
non-negative subtree sum and falls off the tree. -/
theorem claim_C6_negative_cap (l : List (Int × Int)) (cap : Int)
    (h : ∀ kp ∈ l, 0 ≤ kp.1) (hcap : cap < 0) :
    max_count_within_sum (buildTree l) cap = 0 := by
  obtain ⟨ha, hc, _⟩ := buildTree_Inv l
  have hk := buildTree_keysAll (p := fun x => decide (0 ≤ x)) l
    (fun kp hkp => by simpa using h kp hkp)
  rw [max_count_within_sum]
  exact maxGo_neg_cap _ ha hc hk 0 cap hcap

/-- Witness for C6: keys [0, 5], capacity -1, the query returns 0. -/
theorem claim_C6_witness :
    max_count_within_sum (buildTree [(0, 7), (5, 3)]) (-1) = 0 :=
  claim_C6_negative_cap [(0, 7), (5, 3)] (-1) (by decide) (by decide)

/-- Claim C7: every insertion succeeds for any integer key and adds exactly
one element: the root's stored size equals the number of insertions made
(0 for the empty tree), and one further insertion increases it by exactly 1. -/
theorem claim_C7_insert_size (l : List (Int × Int)) (key prio : Int) :
    storedSize (buildTree l) = (l.length : Int) ∧
    storedSize (insert (buildTree l) key prio) =
      storedSize (buildTree l) + 1 := by
  have hgen : ∀ (m : List (Int × Int)),
      storedSize (buildTree m) = (m.length : Int) := by
    intro m
    obtain ⟨ha, hc, _⟩ := buildTree_Inv m
    rw [storedSize_eq_length _ ha hc, (buildTree_perm m).length_eq]
    simp
  refine ⟨hgen l, ?_⟩
  obtain ⟨ha, hc, hb⟩ := buildTree_Inv l
  have hInv2 := insert_Inv key prio (buildTree_Inv l)
  rw [storedSize_eq_length _ hInv2.1 hInv2.2.1, hgen l,
    (insert_inorder_perm key prio hb hc).length_eq]
  have hlen : (inorderKeys (buildTree l)).length = l.length := by
    rw [(buildTree_perm l).length_eq]
    simp
  simp only [List.length_cons, hlen]
  push_cast
  ring

/-- Claim C8: for a fixed tree built by insertions, the query is
non-decreasing in its capacity argument. -/
theorem claim_C8_monotone (l : List (Int × Int)) (cap1 cap2 : Int)
    (h : cap1 ≤ cap2) :
    max_count_within_sum (buildTree l) cap1 ≤
      max_count_within_sum (buildTree l) cap2 := by
  obtain ⟨ha, hc, _⟩ := buildTree_Inv l
  exact maxGo_mono _ ha hc 0 cap1 cap2 h

/-- Witness for C8: keys [2, 5], capacities 3 and 9. -/
theorem claim_C8_witness :
    max_count_within_sum (buildTree [(2, 1), (5, 4)]) 3 ≤
      max_count_within_sum (buildTree [(2, 1), (5, 4)]) 9 :=
  claim_C8_monotone [(2, 1), (5, 4)] 3 9 (by decide)

/-- Claim C9, counterexample: two trees satisfying the BST-order and
aggregate invariants and holding the same multiset [0, 0, 4] (the 0-node
as root with the 4-node right of it, versus the 4-node as root with the
0-node left of it) answer the query at cap 0 differently: 0 versus 2. The
claim fails as stated once a key 0 is stored. -/
theorem claim_C9_counterexample :
    bstOk (Tree.node 0 1 2 3 4 Tree.nil
      (Tree.node 4 0 1 1 4 Tree.nil Tree.nil)) = true ∧
    aggOk (Tree.node 0 1 2 3 4 Tree.nil
      (Tree.node 4 0 1 1 4 Tree.nil Tree.nil)) = true ∧
    bstOk (Tree.node 4 0 1 3 4
      (Tree.node 0 1 2 2 0 Tree.nil Tree.nil) Tree.nil) = true ∧
    aggOk (Tree.node 4 0 1 3 4
      (Tree.node 0 1 2 2 0 Tree.nil Tree.nil) Tree.nil) = true ∧
    inorderKeys (Tree.node 0 1 2 3 4 Tree.nil
      (Tree.node 4 0 1 1 4 Tree.nil Tree.nil)) =
      inorderKeys (Tree.node 4 0 1 3 4
        (Tree.node 0 1 2 2 0 Tree.nil Tree.nil) Tree.nil) ∧
    max_count_within_sum (Tree.node 0 1 2 3 4 Tree.nil
      (Tree.node 4 0 1 1 4 Tree.nil Tree.nil)) 0 ≠
      max_count_within_sum (Tree.node 4 0 1 3 4
        (Tree.node 0 1 2 2 0 Tree.nil Tree.nil) Tree.nil) 0 :=
  ⟨by decide, by decide, by decide, by decide, by decide, by decide⟩

/-- Claim C9, amended: when every stored key is at least 1, the query result
depends only on the stored multiset: any two trees satisfying the BST-order,
aggregate and count invariants with permutation-equal in-order contents give
the same answer for every cap. -/
theorem claim_C9_shape_independent (t1 t2 : Tree) (cap : Int)
    (h1a : aggOk t1 = true) (h1c : cntOk t1 = true) (h1b : bstOk t1 = true)
    (h1k : keysAll (fun x => decide (1 ≤ x)) t1 = true)
    (h2a : aggOk t2 = true) (h2c : cntOk t2 = true) (h2b : bstOk t2 = true)
    (h2k : keysAll (fun x => decide (1 ≤ x)) t2 = true)
    (hsame : inorderKeys t1 ~ inorderKeys t2) :
    max_count_within_sum t1 cap = max_count_within_sum t2 cap := by
  have heq : inorderKeys t1 = inorderKeys t2 :=
    List.eq_of_perm_of_sorted hsame (sorted_inorder _ h1b)
      (sorted_inorder _ h2b)
  rw [max_count_eq_greedy _ h1a h1c h1k cap,
    max_count_eq_greedy _ h2a h2c h2k cap, heq]

/-- Witness for the amended C9: the multiset [1, 2] stored in its two
possible shapes, queried at cap 3. -/
theorem claim_C9_witness :
    max_count_within_sum (Tree.node 1 5 1 2 3 Tree.nil
      (Tree.node 2 3 1 1 2 Tree.nil Tree.nil)) 3 =
      max_count_within_sum (Tree.node 2 1 1 2 3
        (Tree.node 1 9 1 1 1 Tree.nil Tree.nil) Tree.nil) 3 :=
  claim_C9_shape_independent _ _ 3 (by decide) (by decide) (by decide)
    (by decide) (by decide) (by decide) (by decide) (by decide) (by decide)

end CartRemovals
